import Mathlib

set_option linter.unusedSectionVars false

/-!
Verification development for the household expense-ledger and debt-settlement
engine (balance aggregation, debt simplification, currency conversion) and for
the frontend auth store, API client interceptor and timezone utility.

The settlement core (Money, Balance Aggregator, Debt Simplifier, Currency
Converter) is not present in the repository's source tree — only its design
documents and project plan are.  Those definitions are therefore modelled from
the specification text and are marked as such in their doc comments.  The
frontend definitions (auth store login, response interceptor, timezone
detection) are translated from the TypeScript sources.
-/

namespace Manage

/-- Modelled from the spec: the fixed closed set of supported ISO-4217
currency codes (USD, CAD, BBD, BRL, EUR). -/

inductive Currency where
  | usd
  | cad
  | bbd
  | brl
  | eur
deriving DecidableEq

/-- Modelled from the spec: enumeration of the closed currency set, used to
group balances per currency in a fixed order. -/

def currencyList : List Currency :=
  [Currency.usd, Currency.cad, Currency.bbd, Currency.brl, Currency.eur]

/-- Modelled from the spec: a participant reference is either a household
member (by user id) or an external participant (keyed by normalized email). -/

inductive ParticipantRef where
  | member (userId : Nat)
  | external (email : String)
deriving DecidableEq

/-- Modelled from the spec: the stable participant ordering used for all
tie-breaking — member ids before external emails, then lexical. -/

def pLe : ParticipantRef → ParticipantRef → Prop
  | .member a, .member b => a ≤ b
  | .member _, .external _ => True
  | .external _, .member _ => False
  | .external a, .external b => a ≤ b

instance : DecidableRel pLe := fun a b =>
  match a, b with
  | .member x, .member y => decidable_of_iff (x ≤ y) (by simp [pLe])
  | .member _, .external _ => .isTrue trivial
  | .external _, .member _ => .isFalse (fun h => h)
  | .external x, .external y => decidable_of_iff (x ≤ y) (by simp [pLe])

/-- Modelled from the spec: a Money value is an integer amount in minor units
together with a currency code; all ledger arithmetic is exact integer
arithmetic on minor units. -/

structure Money where
  amount : Int
  currency : Currency
deriving DecidableEq

/-! ### Association-list maps with zero-dropping

Balances are derived mappings from keys to nonzero integer amounts; entries
whose net resolves to exactly zero are omitted.  They are embedded as
association lists together with the invariants that keys are unique and no
stored value is zero. -/

section BalanceMap

variable {κ : Type} [DecidableEq κ]

/-- Look a key up in an association list, defaulting to 0 (an absent balance
entry means a zero net balance). -/

def lookupD (k : κ) : List (κ × Int) → Int
  | [] => 0
  | e :: es => if e.1 = k then e.2 else lookupD k es

/-- Add a signed delta to the balance stored at a key, dropping the entry when
the new net is exactly zero (the spec omits zero entries from the result). -/

def addTo (k : κ) (d : Int) : List (κ × Int) → List (κ × Int)
  | [] => if d = 0 then [] else [(k, d)]
  | e :: es =>
    if e.1 = k then
      (if e.2 + d = 0 then es else (k, e.2 + d) :: es)
    else e :: addTo k d es

/-- Keys of a balance map are pairwise distinct. -/

def keysND (m : List (κ × Int)) : Prop := (m.map Prod.fst).Nodup

/-- No entry of a balance map stores a zero amount. -/

def zeroFree (m : List (κ × Int)) : Prop := ∀ e ∈ m, e.2 ≠ 0

/-- A key is present in the map. -/

def hasKey (k : κ) (m : List (κ × Int)) : Prop := k ∈ m.map Prod.fst

instance (m : List (κ × Int)) : Decidable (keysND m) := by
  unfold keysND
  infer_instance

end BalanceMap

/-! ### Canonical ordering of balance entries -/

/-- Modelled from the spec: balance entries ordered by the stable participant
ordering (with the amount as a final tie-break so the relation is a total
order on entries). -/

def entryLe (a b : ParticipantRef × Int) : Prop :=
  (pLe a.1 b.1 ∧ a.1 ≠ b.1) ∨ (a.1 = b.1 ∧ a.2 ≤ b.2)

instance : DecidableRel entryLe := fun a b => by unfold entryLe; infer_instance

/-- Modelled from the spec: canonical presentation of a per-currency balance
group, sorted by the stable participant ordering. -/

def canon (l : List (ParticipantRef × Int)) : List (ParticipantRef × Int) :=
  l.insertionSort entryLe

/-! ### Share splitting with deterministic rounding-remainder distribution -/

/-- Modelled from the spec: the `largest-share-first` ordering used to assign
the rounding remainder — larger percentage first, ties broken by the stable
participant ordering.  Percentages are exact decimals carried in basis points
(33.33% = 3333). -/

def shareGe (a b : ParticipantRef × Nat) : Prop :=
  b.2 < a.2 ∨ (a.2 = b.2 ∧ pLe a.1 b.1)

instance : DecidableRel shareGe := fun a b => by unfold shareGe; infer_instance

/-- Modelled from the spec: hand one extra minor unit to each of the first
`r` shares in largest-share-first order. -/

def addOnes : Nat → List (ParticipantRef × Nat) → List (ParticipantRef × Nat)
  | 0, l => l
  | _ + 1, [] => []
  | r + 1, e :: es => (e.1, e.2 + 1) :: addOnes r es

/-- Modelled from the spec: share amounts are `percentage × total` rounded
down, with the rounding remainder assigned deterministically
largest-share-first so the amount sum matches the total exactly.  `total` is
the expense total in minor units, shares carry percentages in basis points. -/

def computeShareAmounts (total : Nat) (shares : List (ParticipantRef × Nat)) :
    List (ParticipantRef × Nat) :=
  let sorted := shares.insertionSort shareGe
  let base := sorted.map (fun s => (s.1, total * s.2 / 10000))
  addOnes (total - (base.map Prod.snd).sum) base

/-! ### The greedy debt-simplification procedure -/

/-- Modelled from the spec: a SettlementTransaction `{from, to, amount}`
proposed by the Debt Simplifier, from a debtor to a creditor. -/

structure STxn where
  debtor : ParticipantRef
  creditor : ParticipantRef
  currency : Currency
  amount : Int
deriving DecidableEq

/-- Modelled from the spec: select the entry with the largest remaining value
of `f` applied to its balance, among entries where that value is positive;
ties go to the earliest entry, which on a canonically sorted group is the
least participant in the stable ordering. -/

def bestBy (f : Int → Int) : List (ParticipantRef × Int) → Option (ParticipantRef × Int)
  | [] => none
  | e :: es =>
    match bestBy f es with
    | none => if 0 < f e.2 then some e else none
    | some b => if 0 < f e.2 ∧ f b.2 ≤ f e.2 then some e else some b

/-- Modelled from the spec: settle `amount = min(creditor.remaining,
|debtor.remaining|)`, decrement both remaining balances by that amount and
drop any participant whose remaining balance reaches exactly zero. -/

def nextState (g : List (ParticipantRef × Int)) (cr db : ParticipantRef × Int) :
    List (ParticipantRef × Int) :=
  addTo cr.1 (-(min cr.2 (-db.2))) (addTo db.1 (min cr.2 (-db.2)) g)

/-- Modelled from the spec: the greedy balance-matching loop — repeatedly pick
the largest remaining creditor and largest remaining debtor, emit a
SettlementTransaction from the debtor to the creditor, and continue until no
creditors or no debtors remain.  The fuel argument bounds the recursion and is
instantiated with the group size, which the step strictly decreases. -/

def settleFuel (c : Currency) : Nat → List (ParticipantRef × Int) → List STxn
  | 0, _ => []
  | fuel + 1, g =>
    match bestBy id g, bestBy (fun v => -v) g with
    | some cr, some db =>
      STxn.mk db.1 cr.1 c (min cr.2 (-db.2)) :: settleFuel c fuel (nextState g cr db)
    | _, _ => []

/-- Modelled from the spec: run the greedy loop on a per-currency balance
group.  The group size is a sufficient fuel bound. -/

def settle (c : Currency) (g : List (ParticipantRef × Int)) : List STxn :=
  settleFuel c g.length g

/-- Net signed effect of a transaction list on one participant's balance:
as the payer (debtor) of a settlement their balance increases by the amount,
as the payee (creditor) it decreases. -/

def txnNet : List STxn → ParticipantRef → Int
  | [], _ => 0
  | t :: ts, p =>
    ((if p = t.debtor then t.amount else 0) - (if p = t.creditor then t.amount else 0))
      + txnNet ts p

/-! ### Ledger data model and the balance aggregator -/

/-- Modelled from the spec: Payment status state machine values. -/

inductive PaymentStatus where
  | pending
  | completed
  | failed
deriving DecidableEq

/-- Modelled from the spec: a Share — a participant's portion of one Expense,
with the percentage carried in basis points and the amount in minor units of
the expense's currency. -/

structure Share where
  participant : ParticipantRef
  percentBp : Nat
  amount : Int
deriving DecidableEq

/-- Modelled from the spec: an Expense paid by one participant and split among
the participants of its shares.  Fields not used by balance math (id,
household, category, created_at) are omitted; the ledger itself is the
household boundary. -/

structure Expense where
  payer : ParticipantRef
  total : Money
  shares : List Share
  occurredAt : Nat
deriving DecidableEq

/-- Modelled from the spec: a Payment `{from, to, amount, expense_id, status,
occurred_at}`.  `from`/`to` are named `src`/`dst` because `from` is reserved
in Lean. -/

structure Payment where
  src : ParticipantRef
  dst : ParticipantRef
  amount : Money
  expenseId : Option Nat
  status : PaymentStatus
  occurredAt : Nat
deriving DecidableEq

/-- Modelled from the spec: one household's ledger snapshot. -/

structure Ledger where
  expenses : List Expense
  payments : List Payment

/-- Balances derived by the aggregator: a mapping from (participant, currency)
pairs to nonzero net amounts in minor units. -/

abbrev BalMap := List ((ParticipantRef × Currency) × Int)

/-- Modelled from the spec: a share decreases its participant's balance by the
share amount in the expense's currency. -/

def applyShare (c : Currency) (m : BalMap) (s : Share) : BalMap :=
  addTo (s.participant, c) (-s.amount) m

/-- Modelled from the spec: an expense increases the payer's balance by the
total and decreases each share participant's balance by the share amount, all
in the expense's currency. -/

def applyExpense (m : BalMap) (e : Expense) : BalMap :=
  e.shares.foldl (applyShare e.total.currency)
    (addTo (e.payer, e.total.currency) e.total.amount m)

/-- Modelled from the spec: a completed payment increases the payer's (`from`)
balance and decreases the payee's (`to`) balance by the amount, in the
payment's currency. -/

def applyPayment (m : BalMap) (p : Payment) : BalMap :=
  addTo (p.dst, p.amount.currency) (-p.amount.amount)
    (addTo (p.src, p.amount.currency) p.amount.amount m)

/-- Modelled from the spec: defensive re-validation — an expense's share
amounts must sum exactly to its total. -/

def expenseConsistent (e : Expense) : Prop :=
  (e.shares.map Share.amount).sum = e.total.amount

instance : DecidablePred expenseConsistent := fun e => by
  unfold expenseConsistent
  infer_instance

/-- Modelled from the spec: aggregation failure — a data-integrity violation
found during defensive re-validation. -/

inductive AggError where
  | inconsistentShareSum
deriving DecidableEq

/-- Modelled from the spec: `aggregate(household_id, as_of)` — walk the
household's expenses with `occurred_at <= as_of` and its completed payments
with `occurred_at <= as_of`, producing the per-(participant, currency) net
balance mapping with zero entries omitted; refuse to produce a result if any
processed expense fails the share-sum re-validation. -/

def aggregate (L : Ledger) (asOf : Nat) : Except AggError BalMap :=
  let es := L.expenses.filter (fun e => decide (e.occurredAt ≤ asOf))
  if es.all (fun e => decide (expenseConsistent e)) then
    .ok ((L.payments.filter
        (fun p => decide (p.occurredAt ≤ asOf) && decide (p.status = .completed))).foldl
      applyPayment (es.foldl applyExpense []))
  else .error .inconsistentShareSum

/-- Per-currency total of a balance mapping. -/

def sumC (c : Currency) : BalMap → Int
  | [] => 0
  | e :: es => (if e.1.2 = c then e.2 else 0) + sumC c es

/-! ### Per-currency projection of a balance mapping -/

/-- Modelled from the spec: the balances of one currency group, as a mapping
from participants to net amounts. -/

def balancesOf (c : Currency) (m : BalMap) : List (ParticipantRef × Int) :=
  m.filterMap (fun e => if e.1.2 = c then some (e.1.1, e.2) else none)

/-! ### The Debt Simplifier -/

/-- Modelled from the spec: simplification failure for one currency group
whose balances do not sum to zero. -/

inductive SettleError where
  | unbalancedLedger
deriving DecidableEq

/-- Modelled from the spec: per-currency-group minimization — discard zero
balances, check the group sums to zero (else fail with `UnbalancedLedger`),
then run the greedy matching loop on the canonically ordered group. -/

def simplifyGroup (c : Currency) (bal : BalMap) : Except SettleError (List STxn) :=
  if ((balancesOf c bal).map Prod.snd).sum = 0 then
    .ok (settle c (canon ((balancesOf c bal).filter (fun e => decide (e.2 ≠ 0)))))
  else .error .unbalancedLedger

/-- Modelled from the spec: same-currency simplification — group balances by
currency and run the minimization independently per currency group, each group
yielding its own result or per-group error. -/

def simplifySame (bal : BalMap) : List (Currency × Except SettleError (List STxn)) :=
  currencyList.map (fun c => (c, simplifyGroup c bal))

/-! ### Applying a simplification: settlement transactions as completed payments -/

/-- Modelled from the spec: materialize a SettlementTransaction as a Payment
(here recorded with `status = completed` and the aggregation cut-off as its
timestamp, as in the round-trip property; the `apply` operation itself creates
them as `pending` and they take effect once completed). -/

def paymentOfTxn (asOf : Nat) (t : STxn) : Payment :=
  { src := t.debtor, dst := t.creditor, amount := ⟨t.amount, t.currency⟩,
    expenseId := none, status := .completed, occurredAt := asOf }

/-! ### The Currency Converter -/

/-- Modelled from the spec: rates are decimals; they are carried exactly as
integers scaled by 10^6 (a fixed-point decimal), never binary floating
point. -/

def rateScale : Int := 1000000

/-- Half-away-from-zero rounding of the ratio `n / d` for a positive
denominator `d`, on integers. -/

def halfAwayDiv (n d : Int) : Int :=
  if 0 ≤ n then (2 * n + d).fdiv (2 * d) else -((2 * (-n) + d).fdiv (2 * d))

/-- Modelled from the spec: one cached exchange rate, keyed by currency pair,
with its fetch time. -/

structure CacheEntry where
  src : Currency
  dst : Currency
  rate : Int
  fetchedAt : Nat
deriving DecidableEq

/-- Modelled from the spec: the Currency Converter's owned state — the rate
cache and the configured TTL. -/

structure ConvState where
  cache : List CacheEntry
  ttl : Nat

/-- The most recent cached entry for a currency pair, if any. -/

def bestCached (cache : List CacheEntry) (a b : Currency) : Option CacheEntry :=
  cache.foldl (fun acc e =>
    if e.src = a ∧ e.dst = b then
      match acc with
      | none => some e
      | some x => if x.fetchedAt ≤ e.fetchedAt then some e else some x
    else acc) none

/-- Modelled from the spec: conversion failure when no fresh rate can be
fetched and no cached rate exists at all. -/

inductive ConvError where
  | rateUnavailable
deriving DecidableEq

/-- Modelled from the spec: `rate(from, to, at)` — rate 1.0 for equal
currencies; otherwise use the cached rate while it is within the TTL; past
the TTL fetch a fresh rate, falling back to the most recent cached rate
regardless of its age if the fetch fails; fail with `RateUnavailable` only
when the fetch fails and no cached rate exists at all. -/

def rateOf (st : ConvState) (fetch : Currency → Currency → Option Int) (now : Nat)
    (a b : Currency) : Except ConvError Int :=
  if a = b then .ok rateScale
  else
    match bestCached st.cache a b with
    | some e =>
      if now - e.fetchedAt ≤ st.ttl then .ok e.rate
      else
        match fetch a b with
        | some r => .ok r
        | none => .ok e.rate
    | none =>
      match fetch a b with
      | some r => .ok r
      | none => .error .rateUnavailable

/-- Modelled from the spec: `convert(m, to)` — the exact identity when
`to == m.currency` (never a floating round-trip); otherwise apply the rate
and round the minor units half-away-from-zero.  The spec's `to` parameter is
named `tgt` because `to` is reserved in Lean. -/

def convert (st : ConvState) (fetch : Currency → Currency → Option Int) (now : Nat)
    (m : Money) (tgt : Currency) : Except ConvError Money :=
  if tgt = m.currency then .ok m
  else (rateOf st fetch now m.currency tgt).map
    (fun r => ⟨halfAwayDiv (m.amount * r) rateScale, tgt⟩)

/-! ### Unified-currency simplification -/

/-- Modelled from the spec: convert every balance of the mapping into the
target currency via the Currency Converter; the whole conversion fails with
`RateUnavailable` if any single balance cannot be converted. -/

def convertAll (st : ConvState) (fetch : Currency → Currency → Option Int)
    (now : Nat) (tc : Currency) :
    BalMap → Except ConvError (List (ParticipantRef × Int))
  | [] => .ok []
  | e :: es =>
    match convert st fetch now ⟨e.2, e.1.2⟩ tc, convertAll st fetch now tc es with
    | .ok w, .ok ws => .ok ((e.1.1, w.amount) :: ws)
    | _, _ => .error .rateUnavailable

/-- Modelled from the spec: the participants of a balance mapping in the
stable participant ordering. -/

def sortedParticipants (bal : BalMap) : List ParticipantRef :=
  (bal.map (fun e => e.1.1)).dedup.insertionSort pLe

/-- Net converted amount of one participant over the converted balances. -/

def sumFor (p : ParticipantRef) (l : List (ParticipantRef × Int)) : Int :=
  ((l.filter (fun e => decide (e.1 = p))).map Prod.snd).sum

/-- Modelled from the spec: the unified set — per-participant net converted
balances, with zero balances discarded. -/

def unifiedGroup (ps : List ParticipantRef)
    (conv : List (ParticipantRef × Int)) : List (ParticipantRef × Int) :=
  (ps.map (fun p => (p, sumFor p conv))).filter (fun e => decide (e.2 ≠ 0))

/-- Modelled from the spec: failures of unified-currency simplification. -/

inductive UnifiedError where
  | rateUnavailable
  | unbalancedLedger
deriving DecidableEq

/-- Modelled from the spec: unified-currency simplification — convert every
balance into the target currency, then run the minimization once over the
unified set. -/

def simplifyUnified (st : ConvState) (fetch : Currency → Currency → Option Int)
    (now : Nat) (tc : Currency) (bal : BalMap) : Except UnifiedError (List STxn) :=
  match convertAll st fetch now tc bal with
  | .error _ => .error .rateUnavailable
  | .ok conv =>
    if ((unifiedGroup (sortedParticipants bal) conv).map Prod.snd).sum = 0 then
      .ok (settle tc (unifiedGroup (sortedParticipants bal) conv))
    else .error .unbalancedLedger

/-- Modelled from the spec: the two result shapes of `simplify` — per-currency
results without a target currency, a single unified result with one. -/

inductive SimplifyOutput where
  | perCurrency (results : List (Currency × Except SettleError (List STxn)))
  | unified (result : Except UnifiedError (List STxn))

/-- Modelled from the spec: `simplify(balances, target_currency?)`. -/

def simplify (st : ConvState) (fetch : Currency → Currency → Option Int)
    (now : Nat) (bal : BalMap) : Option Currency → SimplifyOutput
  | none => .perCurrency (simplifySame bal)
  | some tc => .unified (simplifyUnified st fetch now tc bal)

/-- Outcome correspondence of two conversion runs: both succeed with
permutation-equal converted lists, or both fail. -/

def ConvRel : Except ConvError (List (ParticipantRef × Int)) →
    Except ConvError (List (ParticipantRef × Int)) → Prop
  | .ok w₁, .ok w₂ => w₁.Perm w₂
  | .error _, .error _ => True
  | _, _ => False

/-! ### Frontend: auth store, API client interceptor, timezone utility -/

/-- Translated from the frontend `User` type (api/auth.ts); only identity is
relevant here. -/

structure User where
  id : Nat
  email : String
deriving DecidableEq

/-- Translated from stores/authStore.ts: the state held by the auth store. -/

structure AuthState where
  user : Option User
  isAuthenticated : Bool
  isLoading : Bool
deriving DecidableEq

/-- Translated from api/auth.ts: the token endpoint's response; a missing or
empty `access_token` is falsy in the source's defensive check. -/

structure TokenResponse where
  accessToken : Option String
deriving DecidableEq

/-- An error thrown by an API call (the axios error as seen by the store). -/

inductive ApiError where
  | httpError (status : Nat)
  | networkError
deriving DecidableEq

/-- Translated from stores/authStore.ts `login`: the error rethrown to the
caller — either the API error or the defensive `No access token received from
server` error. -/

inductive LoginError where
  | api (e : ApiError)
  | noAccessToken
deriving DecidableEq

/-- A localStorage write performed by the store. -/

inductive StoreOp where
  | setItem (key value : String)
deriving DecidableEq

/-- Translated from `useAuthStore.login` (stores/authStore.ts): set
`isLoading`, call the login API, validate that a token was received, persist
it, fetch the current user, then commit the authenticated state; any thrown
error is caught, the store is reset to `user = null`,
`isAuthenticated = false`, `isLoading = false`, and the error is rethrown.
The outcomes of the two API calls are passed in as `Except` values. -/

def login (s : AuthState) (tokenRes : Except ApiError TokenResponse)
    (userRes : Except ApiError User) :
    AuthState × List StoreOp × Except LoginError Unit :=
  let s₁ : AuthState := { s with isLoading := true }
  match tokenRes with
  | .error e =>
    ({ s₁ with isLoading := false, isAuthenticated := false, user := none },
      [], .error (.api e))
  | .ok tr =>
    match tr.accessToken with
    | none =>
      ({ s₁ with isLoading := false, isAuthenticated := false, user := none },
        [], .error .noAccessToken)
    | some tok =>
      if tok = "" then
        ({ s₁ with isLoading := false, isAuthenticated := false, user := none },
          [], .error .noAccessToken)
      else
        match userRes with
        | .error e =>
          ({ s₁ with isLoading := false, isAuthenticated := false, user := none },
            [.setItem "access_token" tok], .error (.api e))
        | .ok u =>
          ({ user := some u, isAuthenticated := true, isLoading := false },
            [.setItem "access_token" tok], .ok ())

/-- Character-list helper: does the second list start with the first? -/

def startsWithChars : List Char → List Char → Bool
  | [], _ => true
  | _ :: _, [] => false
  | p :: ps, c :: cs => p == c && startsWithChars ps cs

/-- Character-list helper: does the pattern occur inside the list? -/

def hasSubstrChars (pat : List Char) : List Char → Bool
  | [] => startsWithChars pat []
  | c :: cs => startsWithChars pat (c :: cs) || hasSubstrChars pat cs

/-- Translated from client.ts: `requestUrl.includes(pattern)`. -/

def strContains (s pat : String) : Bool := hasSubstrChars pat.data s.data

/-- The browser state visible to the response interceptor: current location
pathname and localStorage contents. -/

structure BrowserState where
  pathname : String
  storage : List (String × String)
deriving DecidableEq

/-- Translated from client.ts: `localStorage.removeItem(key)`. -/

def removeItem (k : String) (storage : List (String × String)) :
    List (String × String) :=
  storage.filter (fun e => decide (e.1 ≠ k))

/-- The observable outcome of the response interceptor's error handler: the
localStorage contents afterwards, the redirect target if any, and whether the
error was propagated as a rejected promise. -/

structure InterceptResult where
  storage : List (String × String)
  redirect : Option String
  rejected : Bool
deriving DecidableEq

/-- Translated from the response interceptor error handler in
src/frontend/src/api/client.ts: on a 401, skip all cleanup for login/register
requests; otherwise remove the `access_token` and `user` keys and redirect to
`/login` unless already there; in every case pass the error along as a
rejected promise. -/

def respInterceptor (status : Nat) (url : Option String) (b : BrowserState) :
    InterceptResult :=
  if status = 401 then
    let requestUrl := url.getD ""
    let isAuthRequest := strContains requestUrl "/auth/login"
      || strContains requestUrl "/auth/register"
    if isAuthRequest then
      ⟨b.storage, none, true⟩
    else
      let storage' := removeItem "user" (removeItem "access_token" b.storage)
      if b.pathname ≠ "/login" then ⟨storage', some "/login", true⟩
      else ⟨storage', none, true⟩
  else ⟨b.storage, none, true⟩

/-- Translated from src/frontend/src/utils/timezone.ts: the browser call
`Intl.DateTimeFormat().resolvedOptions().timeZone` either yields an IANA
timezone string or throws; `getUserTimezone` returns the detected timezone
and falls back to `UTC` on a throw. -/

def getUserTimezone (intlResult : Except String String) : String :=
  match intlResult with
  | .ok tz => tz
  | .error _ => "UTC"

instance exceptDecEq {ε α : Type} [DecidableEq ε] [DecidableEq α] :
    DecidableEq (Except ε α) := fun a b =>
  match a, b with
  | .ok x, .ok y => decidable_of_iff (x = y) (by simp)
  | .error x, .error y => decidable_of_iff (x = y) (by simp)
  | .ok _, .error _ => .isFalse (fun h => by cases h)
  | .error _, .ok _ => .isFalse (fun h => by cases h)

/-- A small concrete ledger: a $1.00 expense split 50/50 plus a completed
20-cent repayment. -/

def ledgerC3 : Ledger :=
  ⟨[⟨.member 1, ⟨100, .usd⟩, [⟨.member 1, 5000, 50⟩, ⟨.member 2, 5000, 50⟩], 0⟩],
    [⟨.member 2, .member 1, ⟨20, .usd⟩, none, .completed, 0⟩]⟩

/-- A one-expense ledger: member 1 pays $1.00 owed entirely by member 2. -/

def ledgerC5 : Ledger :=
  ⟨[⟨.member 1, ⟨100, .usd⟩, [⟨.member 2, 10000, 100⟩], 0⟩], []⟩

/-- The spec's scenario cache: a two-hour-old EUR→USD entry (rate 1.10). -/

def cacheC6 : List CacheEntry := [⟨.eur, .usd, 1100000, 0⟩]

/-! ### Properties -/

theorem pLe_refl (a : ParticipantRef) : pLe a a := by
  cases a <;> simp [pLe]

theorem pLe_total (a b : ParticipantRef) : pLe a b ∨ pLe b a := by
  cases a <;> cases b <;> simp [pLe] <;> apply le_total

theorem pLe_trans {a b c : ParticipantRef} (h₁ : pLe a b) (h₂ : pLe b c) : pLe a c := by
  cases a <;> cases b <;> cases c <;> simp_all [pLe] <;> exact le_trans h₁ h₂

theorem pLe_antisymm {a b : ParticipantRef} (h₁ : pLe a b) (h₂ : pLe b a) : a = b := by
  cases a <;> cases b <;> simp only [pLe] at h₁ h₂ <;>
    first
      | exact h₁.elim
      | exact h₂.elim
      | rw [le_antisymm h₁ h₂]

instance : IsTotal ParticipantRef pLe := ⟨pLe_total⟩

instance : IsTrans ParticipantRef pLe := ⟨fun _ _ _ => pLe_trans⟩

instance : IsAntisymm ParticipantRef pLe := ⟨fun _ _ => pLe_antisymm⟩

section BalanceMapLemmas

variable {κ : Type} [DecidableEq κ]

theorem lookupD_eq_zero_of_not_hasKey {k : κ} {m : List (κ × Int)}
    (h : ¬ hasKey k m) : lookupD k m = 0 := by
  induction m with
  | nil => rfl
  | cons e es ih =>
    have h1 : e.1 ≠ k := fun he => h (by simp [hasKey, he])
    have h2 : ¬ hasKey k es := fun hh =>
      h (by simp only [hasKey, List.map_cons, List.mem_cons]; exact Or.inr hh)
    simp only [lookupD, if_neg h1]
    exact ih h2

theorem mem_of_hasKey {k : κ} {m : List (κ × Int)} (h : hasKey k m) :
    (k, lookupD k m) ∈ m := by
  induction m with
  | nil => simp [hasKey] at h
  | cons e es ih =>
    by_cases hk : e.1 = k
    · simp only [lookupD, if_pos hk]
      have he : (k, e.2) = e := by rw [← hk]
      exact he ▸ List.mem_cons_self _ _
    · simp only [hasKey, List.map_cons, List.mem_cons] at h
      rcases h with h | h
      · exact absurd h.symm hk
      · simp only [lookupD, if_neg hk]
        exact List.mem_cons_of_mem _ (ih h)

theorem lookupD_eq_of_mem {k : κ} {v : Int} {m : List (κ × Int)}
    (hm : (k, v) ∈ m) (hnd : keysND m) : lookupD k m = v := by
  induction m with
  | nil => simp at hm
  | cons e es ih =>
    simp only [keysND, List.map_cons, List.nodup_cons] at hnd
    rcases List.mem_cons.mp hm with h | h
    · simp [lookupD, ← h]
    · have hne : e.1 ≠ k := by
        intro he
        exact hnd.1 (by simpa [he] using List.mem_map_of_mem Prod.fst h)
      simp only [lookupD, if_neg hne]
      exact ih h hnd.2

theorem hasKey_of_mem {e : κ × Int} {m : List (κ × Int)} (h : e ∈ m) :
    hasKey e.1 m := List.mem_map_of_mem Prod.fst h

theorem lookupD_perm {m₁ m₂ : List (κ × Int)} (hp : m₁.Perm m₂)
    (hnd : keysND m₁) (k : κ) : lookupD k m₁ = lookupD k m₂ := by
  have hnd₂ : keysND m₂ := (hp.map Prod.fst).nodup hnd
  by_cases hk : hasKey k m₁
  · exact (lookupD_eq_of_mem (hp.mem_iff.mp (mem_of_hasKey hk)) hnd₂).symm
  · have hk₂ : ¬ hasKey k m₂ := fun h =>
      hk (by simpa [hasKey] using (hp.map Prod.fst).mem_iff.mpr h)
    rw [lookupD_eq_zero_of_not_hasKey hk, lookupD_eq_zero_of_not_hasKey hk₂]

theorem lookupD_addTo {k k' : κ} {d : Int} {m : List (κ × Int)} (hnd : keysND m) :
    lookupD k' (addTo k d m) = lookupD k' m + (if k' = k then d else 0) := by
  induction m with
  | nil =>
    by_cases hd : d = 0
    · simp [addTo, lookupD, hd]
    · by_cases h' : k' = k
      · simp [addTo, lookupD, hd, h']
      · have h'' : k ≠ k' := fun hh => h' hh.symm
        simp [addTo, lookupD, hd, h', h'']
  | cons e es ih =>
    simp only [keysND, List.map_cons, List.nodup_cons] at hnd
    by_cases he : e.1 = k
    · by_cases hz : e.2 + d = 0
      · simp only [addTo, if_pos he, if_pos hz]
        by_cases h' : k' = k
        · have hnk : ¬ hasKey k' es := by
            rw [h', ← he]; exact hnd.1
          have he' : e.1 = k' := by rw [he, h']
          rw [lookupD_eq_zero_of_not_hasKey hnk]
          simp only [lookupD, if_pos he', if_pos h']
          omega
        · have he' : e.1 ≠ k' := fun hh => h' (by rw [← hh, he])
          simp [lookupD, if_neg he', h']
      · simp only [addTo, if_pos he, if_neg hz]
        by_cases h' : k' = k
        · have hkk : k = k' := h'.symm
          simp only [lookupD, if_pos hkk, if_pos (he.trans hkk), if_pos h']
        · have hkk : k ≠ k' := fun hh => h' hh.symm
          have he' : e.1 ≠ k' := fun hh => h' (by rw [← hh, he])
          simp [lookupD, if_neg hkk, if_neg he', h']
    · simp only [addTo, if_neg he, lookupD]
      by_cases h' : e.1 = k'
      · have hkk : k' ≠ k := fun hh => he (by rw [h', hh])
        simp [if_pos h', hkk]
      · simp only [if_neg h']
        exact ih hnd.2

theorem mem_addTo_cases {k : κ} {d : Int} {m : List (κ × Int)} {x : κ × Int}
    (h : x ∈ addTo k d m) : x ∈ m ∨ x.1 = k := by
  induction m with
  | nil =>
    by_cases hd : d = 0 <;> simp_all [addTo]
  | cons e es ih =>
    by_cases he : e.1 = k
    · by_cases hz : e.2 + d = 0
      · simp only [addTo, if_pos he, if_pos hz] at h
        exact Or.inl (List.mem_cons_of_mem _ h)
      · simp only [addTo, if_pos he, if_neg hz, List.mem_cons] at h
        rcases h with h | h
        · exact Or.inr (by rw [h])
        · exact Or.inl (List.mem_cons_of_mem _ h)
    · simp only [addTo, if_neg he, List.mem_cons] at h
      rcases h with h | h
      · exact Or.inl (h ▸ List.mem_cons_self _ _)
      · rcases ih h with h' | h'
        · exact Or.inl (List.mem_cons_of_mem _ h')
        · exact Or.inr h'

theorem keysND_addTo {k : κ} {d : Int} {m : List (κ × Int)} (hnd : keysND m) :
    keysND (addTo k d m) := by
  induction m with
  | nil =>
    by_cases h : d = 0 <;> simp [addTo, keysND, h]
  | cons e es ih =>
    simp only [keysND, List.map_cons, List.nodup_cons] at hnd
    by_cases he : e.1 = k
    · by_cases hz : e.2 + d = 0
      · simpa [addTo, if_pos he, if_pos hz, keysND] using hnd.2
      · simp only [addTo, if_pos he, if_neg hz, keysND, List.map_cons, List.nodup_cons]
        exact ⟨he ▸ hnd.1, hnd.2⟩
    · simp only [addTo, if_neg he, keysND, List.map_cons, List.nodup_cons]
      constructor
      · intro hmem
        rcases List.mem_map.mp hmem with ⟨x, hx, hx1⟩
        rcases (mem_addTo_cases hx) with h | h
        · exact hnd.1 (hx1 ▸ List.mem_map_of_mem Prod.fst h)
        · exact he (hx1 ▸ h ▸ rfl)
      · exact ih hnd.2

theorem zeroFree_addTo {k : κ} {d : Int} {m : List (κ × Int)} (hz : zeroFree m) :
    zeroFree (addTo k d m) := by
  induction m with
  | nil =>
    by_cases hd : d = 0
    · simp [addTo, hd, zeroFree]
    · simpa [addTo, hd, zeroFree] using hd
  | cons e es ih =>
    have hze : e.2 ≠ 0 := hz e (List.mem_cons_self _ _)
    have hzes : zeroFree es := fun x hx => hz x (List.mem_cons_of_mem _ hx)
    by_cases he : e.1 = k
    · by_cases hzz : e.2 + d = 0
      · simpa [addTo, if_pos he, if_pos hzz, zeroFree] using hzes
      · intro x hx
        simp only [addTo, if_pos he, if_neg hzz, List.mem_cons] at hx
        rcases hx with hx | hx
        · rw [hx]; exact hzz
        · exact hzes x hx
    · intro x hx
      simp only [addTo, if_neg he, List.mem_cons] at hx
      rcases hx with hx | hx
      · rw [hx]; exact hze
      · exact ih hzes x hx

theorem sum_addTo (k : κ) (d : Int) (m : List (κ × Int)) :
    ((addTo k d m).map Prod.snd).sum = (m.map Prod.snd).sum + d := by
  induction m with
  | nil =>
    by_cases hd : d = 0 <;> simp [addTo, hd]
  | cons e es ih =>
    by_cases he : e.1 = k
    · by_cases hz : e.2 + d = 0
      · simp only [addTo, if_pos he, if_pos hz, List.map_cons, List.sum_cons]
        omega
      · simp only [addTo, if_pos he, if_neg hz, List.map_cons, List.sum_cons]
        omega
    · simp only [addTo, if_neg he, List.map_cons, List.sum_cons, ih]
      omega

theorem length_addTo_of_hasKey {k : κ} {d : Int} {m : List (κ × Int)}
    (h : hasKey k m) : (addTo k d m).length =
      if lookupD k m + d = 0 then m.length - 1 else m.length := by
  induction m with
  | nil => simp [hasKey] at h
  | cons e es ih =>
    by_cases he : e.1 = k
    · by_cases hz : e.2 + d = 0 <;>
        simp [addTo, lookupD, if_pos he, hz]
    · have hes : hasKey k es := by
        simp only [hasKey, List.map_cons, List.mem_cons] at h
        rcases h with h | h
        · exact absurd h.symm he
        · exact h
      have hlen : 1 ≤ es.length := by
        rcases List.mem_map.mp hes with ⟨x, hx, _⟩
        exact List.length_pos.mpr (List.ne_nil_of_mem hx)
      simp only [addTo, if_neg he, lookupD, List.length_cons, ih hes]
      by_cases hl : lookupD k es + d = 0 <;> simp [hl] <;> omega

theorem mem_addTo_of_ne {k : κ} {d : Int} {m : List (κ × Int)} {x : κ × Int}
    (hx : x ∈ m) (hne : x.1 ≠ k) : x ∈ addTo k d m := by
  induction m with
  | nil => simp at hx
  | cons e es ih =>
    rcases List.mem_cons.mp hx with hx' | hx'
    · by_cases he : e.1 = k
      · exact absurd (hx' ▸ he) hne
      · simp only [addTo, if_neg he]
        exact hx' ▸ List.mem_cons_self _ _
    · by_cases he : e.1 = k
      · by_cases hz : e.2 + d = 0
        · simpa [addTo, if_pos he, if_pos hz] using hx'
        · simp only [addTo, if_pos he, if_neg hz]
          exact List.mem_cons_of_mem _ hx'
      · simp only [addTo, if_neg he]
        exact List.mem_cons_of_mem _ (ih hx')

theorem length_addTo_le_of_hasKey {k : κ} {d : Int} {m : List (κ × Int)}
    (h : hasKey k m) : (addTo k d m).length ≤ m.length := by
  rw [length_addTo_of_hasKey h]
  split <;> omega

theorem length_addTo_lt {k : κ} {d : Int} {m : List (κ × Int)}
    (h : hasKey k m) (hz : lookupD k m + d = 0) : (addTo k d m).length < m.length := by
  have h1 : 1 ≤ m.length := List.length_pos.mpr (List.ne_nil_of_mem (mem_of_hasKey h))
  rw [length_addTo_of_hasKey h, if_pos hz]
  omega

theorem two_le_length_of_mem_ne {x y : κ × Int} {m : List (κ × Int)}
    (hx : x ∈ m) (hy : y ∈ m) (hne : x ≠ y) : 2 ≤ m.length := by
  induction m with
  | nil => simp at hx
  | cons e es ih =>
    rcases List.mem_cons.mp hx with hx' | hx'
    · rcases List.mem_cons.mp hy with hy' | hy'
      · exact absurd (hx'.trans hy'.symm) hne
      · have : 1 ≤ es.length := List.length_pos.mpr (List.ne_nil_of_mem hy')
        simp only [List.length_cons]
        omega
    · have : 1 ≤ es.length := List.length_pos.mpr (List.ne_nil_of_mem hx')
      simp only [List.length_cons]
      omega

end BalanceMapLemmas

instance : IsTotal (ParticipantRef × Int) entryLe := by
  constructor
  intro a b
  by_cases h : a.1 = b.1
  · rcases le_total a.2 b.2 with h' | h'
    · exact Or.inl (Or.inr ⟨h, h'⟩)
    · exact Or.inr (Or.inr ⟨h.symm, h'⟩)
  · rcases pLe_total a.1 b.1 with h' | h'
    · exact Or.inl (Or.inl ⟨h', h⟩)
    · exact Or.inr (Or.inl ⟨h', fun hh => h hh.symm⟩)

instance : IsTrans (ParticipantRef × Int) entryLe := by
  constructor
  intro a b c hab hbc
  rcases hab with ⟨h₁, h₂⟩ | ⟨h₁, h₂⟩ <;> rcases hbc with ⟨h₃, h₄⟩ | ⟨h₃, h₄⟩
  · refine Or.inl ⟨pLe_trans h₁ h₃, fun hac => ?_⟩
    exact h₂ (pLe_antisymm h₁ (hac ▸ h₃))
  · exact Or.inl ⟨h₃ ▸ h₁, h₃ ▸ h₂⟩
  · exact Or.inl ⟨h₁ ▸ h₃, fun hac => h₄ (h₁.symm.trans hac)⟩
  · exact Or.inr ⟨h₁.trans h₃, le_trans h₂ h₄⟩

instance : IsAntisymm (ParticipantRef × Int) entryLe := by
  constructor
  intro a b hab hba
  rcases hab with ⟨h₁, h₂⟩ | ⟨h₁, h₂⟩ <;> rcases hba with ⟨h₃, h₄⟩ | ⟨h₃, h₄⟩
  · exact absurd (pLe_antisymm h₁ h₃) h₂
  · exact absurd h₃.symm h₂
  · exact absurd h₁.symm h₄
  · exact Prod.ext h₁ (le_antisymm h₂ h₄)

theorem canon_perm (l : List (ParticipantRef × Int)) : (canon l).Perm l :=
  List.perm_insertionSort entryLe l

theorem canon_eq_of_perm {l₁ l₂ : List (ParticipantRef × Int)} (h : l₁.Perm l₂) :
    canon l₁ = canon l₂ :=
  List.eq_of_perm_of_sorted ((canon_perm l₁).trans (h.trans (canon_perm l₂).symm))
    (List.sorted_insertionSort entryLe l₁) (List.sorted_insertionSort entryLe l₂)

theorem addOnes_sum (r : Nat) (l : List (ParticipantRef × Nat)) :
    ((addOnes r l).map Prod.snd).sum = (l.map Prod.snd).sum + min r l.length := by
  induction l generalizing r with
  | nil => cases r <;> simp [addOnes]
  | cons e es ih =>
    cases r with
    | zero => simp [addOnes]
    | succ r' =>
      simp only [addOnes, List.map_cons, List.sum_cons, ih, List.length_cons]
      omega

theorem sum_div_bounds (l : List Nat) :
    10000 * (l.map (· / 10000)).sum ≤ l.sum ∧
      l.sum ≤ 10000 * (l.map (· / 10000)).sum + 9999 * l.length := by
  induction l with
  | nil => simp
  | cons x xs ih =>
    have hx : x = 10000 * (x / 10000) + x % 10000 := (Nat.div_add_mod x 10000).symm
    have hm : x % 10000 < 10000 := Nat.mod_lt _ (by omega)
    simp only [List.map_cons, List.sum_cons, List.length_cons]
    omega

theorem sum_map_mul_left_nat (t : Nat) (f : ParticipantRef × Nat → Nat)
    (l : List (ParticipantRef × Nat)) :
    (l.map (fun s => t * f s)).sum = t * (l.map f).sum := by
  induction l with
  | nil => simp
  | cons e es ih =>
    simp only [List.map_cons, List.sum_cons, ih, Nat.mul_add]

theorem computeShareAmounts_sum (total : Nat) (shares : List (ParticipantRef × Nat))
    (hsum : (shares.map Prod.snd).sum = 10000) :
    ((computeShareAmounts total shares).map Prod.snd).sum = total := by
  have hperm : (shares.insertionSort shareGe).Perm shares := List.perm_insertionSort _ _
  set sorted := shares.insertionSort shareGe with hs
  set base := sorted.map (fun s => (s.1, total * s.2 / 10000)) with hbase
  have hcsa : computeShareAmounts total shares =
      addOnes (total - (base.map Prod.snd).sum) base := rfl
  have hS1 : base.map Prod.snd = (sorted.map (fun s => total * s.2)).map (· / 10000) := by
    simp only [hbase, List.map_map]
    rfl
  obtain ⟨hb1, hb2⟩ := sum_div_bounds (sorted.map (fun s => total * s.2))
  rw [← hS1] at hb1 hb2
  have hlen : (sorted.map (fun s => total * s.2)).length = base.length := by
    simp [hbase]
  rw [hlen] at hb2
  have hml : (sorted.map (fun s => total * s.2)).sum = total * 10000 := by
    rw [sum_map_mul_left_nat total Prod.snd sorted,
      ((hperm.map Prod.snd).sum_eq).trans hsum]
  rw [hml] at hb1 hb2
  rw [hcsa, addOnes_sum]
  omega

theorem bestBy_mem {f : Int → Int} {l : List (ParticipantRef × Int)}
    {e : ParticipantRef × Int} (h : bestBy f l = some e) : e ∈ l ∧ 0 < f e.2 := by
  induction l with
  | nil => simp [bestBy] at h
  | cons x xs ih =>
    cases hb : bestBy f xs with
    | none =>
      simp only [bestBy, hb] at h
      by_cases hx : 0 < f x.2
      · rw [if_pos hx] at h
        cases h
        exact ⟨List.mem_cons_self _ _, hx⟩
      · rw [if_neg hx] at h
        cases h
    | some b =>
      simp only [bestBy, hb] at h
      by_cases hx : 0 < f x.2 ∧ f b.2 ≤ f x.2
      · rw [if_pos hx] at h
        cases h
        exact ⟨List.mem_cons_self _ _, hx.1⟩
      · rw [if_neg hx] at h
        cases h
        obtain ⟨hmem, hpos⟩ := ih hb
        exact ⟨List.mem_cons_of_mem _ hmem, hpos⟩

theorem bestBy_isSome {f : Int → Int} {l : List (ParticipantRef × Int)}
    {e : ParticipantRef × Int} (hmem : e ∈ l) (hpos : 0 < f e.2) :
    ∃ b, bestBy f l = some b := by
  induction l with
  | nil => simp at hmem
  | cons x xs ih =>
    cases hb : bestBy f xs with
    | none =>
      simp only [bestBy, hb]
      rcases List.mem_cons.mp hmem with hx | hx
      · rw [if_pos (hx ▸ hpos)]
        exact ⟨x, rfl⟩
      · obtain ⟨b, hb'⟩ := ih hx
        rw [hb'] at hb
        cases hb
    | some b =>
      simp only [bestBy, hb]
      by_cases hc : 0 < f x.2 ∧ f b.2 ≤ f x.2
      · rw [if_pos hc]; exact ⟨x, rfl⟩
      · rw [if_neg hc]; exact ⟨b, rfl⟩

theorem sum_nonpos_of_all_nonpos {g : List (ParticipantRef × Int)}
    (h : ∀ e ∈ g, e.2 ≤ 0) : (g.map Prod.snd).sum ≤ 0 := by
  induction g with
  | nil => simp
  | cons e es ih =>
    simp only [List.map_cons, List.sum_cons]
    have h1 := h e (List.mem_cons_self _ _)
    have h2 := ih (fun x hx => h x (List.mem_cons_of_mem _ hx))
    omega

theorem sum_nonneg_of_all_nonneg {g : List (ParticipantRef × Int)}
    (h : ∀ e ∈ g, 0 ≤ e.2) : 0 ≤ (g.map Prod.snd).sum := by
  induction g with
  | nil => simp
  | cons e es ih =>
    simp only [List.map_cons, List.sum_cons]
    have h1 := h e (List.mem_cons_self _ _)
    have h2 := ih (fun x hx => h x (List.mem_cons_of_mem _ hx))
    omega

theorem exists_pos_neg {g : List (ParticipantRef × Int)} (hg : g ≠ [])
    (hzf : zeroFree g) (hsum : (g.map Prod.snd).sum = 0) :
    (∃ e ∈ g, 0 < e.2) ∧ (∃ e ∈ g, e.2 < 0) := by
  obtain ⟨e, es, rfl⟩ := List.exists_cons_of_ne_nil hg
  constructor
  · by_contra h
    push_neg at h
    have h1 : e.2 < 0 :=
      lt_of_le_of_ne (h e (List.mem_cons_self _ _)) (hzf e (List.mem_cons_self _ _))
    have h2 := sum_nonpos_of_all_nonpos (fun x hx => h x (List.mem_cons_of_mem _ hx))
    simp only [List.map_cons, List.sum_cons] at hsum
    omega
  · by_contra h
    push_neg at h
    have h1 : 0 < e.2 :=
      lt_of_le_of_ne (h e (List.mem_cons_self _ _)) (Ne.symm (hzf e (List.mem_cons_self _ _)))
    have h2 := sum_nonneg_of_all_nonneg (fun x hx => h x (List.mem_cons_of_mem _ hx))
    simp only [List.map_cons, List.sum_cons] at hsum
    omega

theorem settle_step {g : List (ParticipantRef × Int)} {cr db : ParticipantRef × Int}
    (hnd : keysND g) (hzf : zeroFree g)
    (hcr : bestBy id g = some cr) (hdb : bestBy (fun v => -v) g = some db) :
    keysND (nextState g cr db) ∧ zeroFree (nextState g cr db) ∧
      ((nextState g cr db).map Prod.snd).sum = (g.map Prod.snd).sum ∧
      (nextState g cr db).length < g.length ∧ 2 ≤ g.length ∧
      (∀ p, lookupD p (nextState g cr db) =
        lookupD p g + ((if p = db.1 then min cr.2 (-db.2) else 0)
          - (if p = cr.1 then min cr.2 (-db.2) else 0))) := by
  obtain ⟨hcm, hcp'⟩ := bestBy_mem hcr
  obtain ⟨hdm, hdp'⟩ := bestBy_mem hdb
  have hcp : 0 < cr.2 := hcp'
  have hdp : 0 < -db.2 := hdp'
  have hne : cr.1 ≠ db.1 := by
    intro he
    have h1 := lookupD_eq_of_mem hcm hnd
    have h2 := lookupD_eq_of_mem hdm hnd
    rw [he, h2] at h1
    omega
  have hmin : min cr.2 (-db.2) = cr.2 ∨ min cr.2 (-db.2) = -db.2 := min_choice _ _
  have hminpos : 0 < min cr.2 (-db.2) := lt_min hcp hdp
  have hnd₁ : keysND (addTo db.1 (min cr.2 (-db.2)) g) := keysND_addTo hnd
  have hzf₁ : zeroFree (addTo db.1 (min cr.2 (-db.2)) g) := zeroFree_addTo hzf
  have hcm₁ : cr ∈ addTo db.1 (min cr.2 (-db.2)) g := mem_addTo_of_ne hcm hne
  have hld : lookupD db.1 g = db.2 := lookupD_eq_of_mem hdm hnd
  have hlc : lookupD cr.1 g = cr.2 := lookupD_eq_of_mem hcm hnd
  have hlc₁ : lookupD cr.1 (addTo db.1 (min cr.2 (-db.2)) g) = cr.2 := by
    rw [lookupD_addTo hnd, hlc, if_neg hne]
    omega
  have h2len : 2 ≤ g.length := by
    refine two_le_length_of_mem_ne hcm hdm (fun h => ?_)
    rw [h] at hcp
    omega
  refine ⟨keysND_addTo hnd₁, zeroFree_addTo hzf₁, ?_, ?_, h2len, ?_⟩
  · rw [nextState, sum_addTo, sum_addTo]
    omega
  · rw [nextState]
    rcases hmin with hm | hm
    · have hcz : lookupD cr.1 (addTo db.1 (min cr.2 (-db.2)) g)
          + (-(min cr.2 (-db.2))) = 0 := by
        rw [hlc₁, hm]
        omega
      exact lt_of_lt_of_le (length_addTo_lt (hasKey_of_mem hcm₁) hcz)
        (length_addTo_le_of_hasKey (hasKey_of_mem hdm))
    · have hdz : lookupD db.1 g + min cr.2 (-db.2) = 0 := by
        rw [hld, hm]
        omega
      exact lt_of_le_of_lt (length_addTo_le_of_hasKey (hasKey_of_mem hcm₁))
        (length_addTo_lt (hasKey_of_mem hdm) hdz)
  · intro p
    have hne' : db.1 ≠ cr.1 := fun h => hne h.symm
    rw [nextState, lookupD_addTo hnd₁, lookupD_addTo hnd]
    by_cases h1 : p = db.1
    · by_cases h2 : p = cr.1
      · exact absurd (h1.symm.trans h2) hne'
      · simp only [if_pos h1, if_neg h2]
        omega
    · by_cases h2 : p = cr.1
      · simp only [if_neg h1, if_pos h2]
        omega
      · simp only [if_neg h1, if_neg h2]
        omega

theorem settleFuel_net (c : Currency) :
    ∀ (fuel : Nat) (g : List (ParticipantRef × Int)), keysND g → zeroFree g →
      (g.map Prod.snd).sum = 0 → g.length ≤ fuel →
      ∀ p, lookupD p g + txnNet (settleFuel c fuel g) p = 0 := by
  intro fuel
  induction fuel with
  | zero =>
    intro g _ _ _ hlen p
    have hg : g = [] := List.length_eq_zero.mp (Nat.le_zero.mp hlen)
    subst hg
    simp [settleFuel, lookupD, txnNet]
  | succ fuel ih =>
    intro g hnd hzf hsum hlen p
    by_cases hg : g = []
    · subst hg
      simp [settleFuel, bestBy, lookupD, txnNet]
    · obtain ⟨⟨ep, hmem_p, hp⟩, ⟨en, hmem_n, hn⟩⟩ := exists_pos_neg hg hzf hsum
      obtain ⟨cr, hcr⟩ := bestBy_isSome (f := id) hmem_p hp
      obtain ⟨db, hdb⟩ := bestBy_isSome (f := fun v => -v) hmem_n
        (show 0 < -en.2 by omega)
      obtain ⟨hnd', hzf', hsum', hlen', h2, hlook⟩ := settle_step hnd hzf hcr hdb
      have ihp := ih (nextState g cr db) hnd' hzf' (hsum'.trans hsum) (by omega) p
      have hl := hlook p
      simp only [settleFuel, hcr, hdb, txnNet]
      linarith [hl, ihp]

theorem settleFuel_count (c : Currency) :
    ∀ (fuel : Nat) (g : List (ParticipantRef × Int)), keysND g → zeroFree g →
      (g.map Prod.snd).sum = 0 → g.length ≤ fuel →
      (settleFuel c fuel g).length ≤ g.length - 1 := by
  intro fuel
  induction fuel with
  | zero =>
    intro g _ _ _ _
    simp [settleFuel]
  | succ fuel ih =>
    intro g hnd hzf hsum hlen
    by_cases hg : g = []
    · subst hg
      simp [settleFuel, bestBy]
    · obtain ⟨⟨ep, hmem_p, hp⟩, ⟨en, hmem_n, hn⟩⟩ := exists_pos_neg hg hzf hsum
      obtain ⟨cr, hcr⟩ := bestBy_isSome (f := id) hmem_p hp
      obtain ⟨db, hdb⟩ := bestBy_isSome (f := fun v => -v) hmem_n
        (show 0 < -en.2 by omega)
      obtain ⟨hnd', hzf', hsum', hlen', h2, _⟩ := settle_step hnd hzf hcr hdb
      have ihc := ih (nextState g cr db) hnd' hzf' (hsum'.trans hsum) (by omega)
      simp only [settleFuel, hcr, hdb, List.length_cons]
      omega

theorem sumC_addTo (c : Currency) (k : ParticipantRef × Currency) (d : Int)
    (m : BalMap) :
    sumC c (addTo k d m) = sumC c m + (if k.2 = c then d else 0) := by
  induction m with
  | nil =>
    by_cases hd : d = 0
    · simp [addTo, sumC, hd]
    · by_cases hc : k.2 = c <;> simp [addTo, sumC, hd, hc]
  | cons e es ih =>
    by_cases he : e.1 = k
    · have he2 : e.1.2 = k.2 := by rw [he]
      by_cases hz : e.2 + d = 0
      · simp only [addTo, if_pos he, if_pos hz, sumC, he2]
        by_cases hc : k.2 = c <;> simp [hc] <;> omega
      · simp only [addTo, if_pos he, if_neg hz, sumC, he2]
        by_cases hc : k.2 = c <;> simp [hc] <;> omega
    · simp only [addTo, if_neg he, sumC, ih]
      omega

theorem sumC_applyShare (c cur : Currency) (m : BalMap) (s : Share) :
    sumC c (applyShare cur m s) = sumC c m - (if cur = c then s.amount else 0) := by
  rw [applyShare, sumC_addTo]
  by_cases hc : cur = c <;> simp [hc] <;> omega

theorem sumC_sharesFold (c cur : Currency) :
    ∀ (shares : List Share) (m : BalMap),
      sumC c (shares.foldl (applyShare cur) m) =
        sumC c m - (if cur = c then (shares.map Share.amount).sum else 0) := by
  intro shares
  induction shares with
  | nil => intro m; simp
  | cons s ss ih =>
    intro m
    simp only [List.foldl_cons, ih, sumC_applyShare, List.map_cons, List.sum_cons]
    by_cases hc : cur = c <;> simp [hc] <;> omega

theorem sumC_applyExpense (c : Currency) (m : BalMap) (e : Expense)
    (he : expenseConsistent e) : sumC c (applyExpense m e) = sumC c m := by
  rw [applyExpense, sumC_sharesFold, sumC_addTo]
  rw [expenseConsistent] at he
  by_cases hc : e.total.currency = c <;> simp [hc] <;> omega

theorem sumC_applyPayment (c : Currency) (m : BalMap) (p : Payment) :
    sumC c (applyPayment m p) = sumC c m := by
  rw [applyPayment, sumC_addTo, sumC_addTo]
  by_cases hc : p.amount.currency = c <;> simp [hc]

theorem sumC_expensesFold (c : Currency) :
    ∀ (es : List Expense) (m : BalMap), (∀ e ∈ es, expenseConsistent e) →
      sumC c (es.foldl applyExpense m) = sumC c m := by
  intro es
  induction es with
  | nil => intro m _; rfl
  | cons e es ih =>
    intro m hall
    simp only [List.foldl_cons]
    rw [ih _ (fun x hx => hall x (List.mem_cons_of_mem _ hx)),
      sumC_applyExpense _ _ _ (hall e (List.mem_cons_self _ _))]

theorem sumC_paymentsFold (c : Currency) :
    ∀ (ps : List Payment) (m : BalMap),
      sumC c (ps.foldl applyPayment m) = sumC c m := by
  intro ps
  induction ps with
  | nil => intro m; rfl
  | cons p ps ih =>
    intro m
    simp only [List.foldl_cons, ih, sumC_applyPayment]

theorem aggregate_conservation {L : Ledger} {asOf : Nat} {m : BalMap}
    (h : aggregate L asOf = .ok m) (c : Currency) : sumC c m = 0 := by
  unfold aggregate at h
  simp only at h
  split at h
  case isTrue hall =>
    cases h
    rw [sumC_paymentsFold, sumC_expensesFold]
    · rfl
    · intro e he
      have := List.all_eq_true.mp hall e he
      exact of_decide_eq_true this
  case isFalse => cases h

theorem foldl_preserves {α : Type} (f : BalMap → α → BalMap) (P : BalMap → Prop)
    (hf : ∀ m a, P m → P (f m a)) :
    ∀ (l : List α) (m : BalMap), P m → P (l.foldl f m) := by
  intro l
  induction l with
  | nil => intro m hm; exact hm
  | cons a as ih => intro m hm; exact ih _ (hf m a hm)

theorem applyExpense_preserves (P : BalMap → Prop)
    (hadd : ∀ (k : ParticipantRef × Currency) (d : Int) m, P m → P (addTo k d m))
    (m : BalMap) (e : Expense) (hm : P m) : P (applyExpense m e) := by
  rw [applyExpense]
  exact foldl_preserves _ P (fun m' s hm' => hadd _ _ _ hm') _ _ (hadd _ _ _ hm)

theorem aggregate_invariants {L : Ledger} {asOf : Nat} {m : BalMap}
    (h : aggregate L asOf = .ok m) : keysND m ∧ zeroFree m := by
  unfold aggregate at h
  simp only at h
  split at h
  case isTrue =>
    cases h
    constructor
    · refine foldl_preserves applyPayment keysND ?_ _ _
        (foldl_preserves applyExpense keysND ?_ _ _ ?_)
      · intro m p hm
        exact keysND_addTo (keysND_addTo hm)
      · intro m e hm
        exact applyExpense_preserves keysND (fun k d m' hm' => keysND_addTo hm') m e hm
      · simp [keysND]
    · refine foldl_preserves applyPayment zeroFree ?_ _ _
        (foldl_preserves applyExpense zeroFree ?_ _ _ ?_)
      · intro m p hm
        exact zeroFree_addTo (zeroFree_addTo hm)
      · intro m e hm
        exact applyExpense_preserves zeroFree (fun k d m' hm' => zeroFree_addTo hm') m e hm
      · intro e he
        simp at he
  case isFalse => cases h

theorem mem_balancesOf {c : Currency} {m : BalMap} {x : ParticipantRef × Int} :
    x ∈ balancesOf c m ↔ ((x.1, c), x.2) ∈ m := by
  constructor
  · intro hx
    obtain ⟨a, ha, hfa⟩ := List.mem_filterMap.mp hx
    by_cases hc : a.1.2 = c
    · rw [if_pos hc] at hfa
      obtain ⟨h1, h2⟩ := Prod.mk.injEq .. ▸ Option.some.inj hfa
      have : a = ((x.1, c), x.2) := by
        have ha1 : a.1 = (x.1, c) := Prod.ext (by rw [← h1]) hc
        calc a = (a.1, a.2) := rfl
          _ = ((x.1, c), x.2) := by rw [ha1, h2]
      exact this ▸ ha
    · rw [if_neg hc] at hfa
      cases hfa
  · intro hx
    refine List.mem_filterMap.mpr ⟨((x.1, c), x.2), hx, ?_⟩
    simp

theorem lookupD_balancesOf (c : Currency) (m : BalMap) (p : ParticipantRef) :
    lookupD p (balancesOf c m) = lookupD (p, c) m := by
  induction m with
  | nil => rfl
  | cons e es ih =>
    by_cases hc : e.1.2 = c
    · simp only [balancesOf, List.filterMap_cons, if_pos hc]
      by_cases hp : e.1.1 = p
      · have he : e.1 = (p, c) := Prod.ext hp hc
        simp [lookupD, hp, he]
      · have he : e.1 ≠ (p, c) := fun h => hp (by rw [h])
        simp only [lookupD, if_neg hp, if_neg he]
        exact ih
    · have he : e.1 ≠ (p, c) := fun h => hc (by rw [h])
      simp only [balancesOf, List.filterMap_cons, if_neg hc, lookupD, if_neg he]
      exact ih

theorem zeroFree_balancesOf {c : Currency} {m : BalMap} (hz : zeroFree m) :
    zeroFree (balancesOf c m) := fun x hx =>
  hz _ (mem_balancesOf.mp hx)

theorem hasKey_balancesOf {c : Currency} {m : BalMap} {p : ParticipantRef}
    (h : hasKey p (balancesOf c m)) : hasKey (p, c) m := by
  obtain ⟨x, hx, hx1⟩ := List.mem_map.mp h
  have := mem_balancesOf.mp hx
  rw [hx1] at this
  exact List.mem_map_of_mem Prod.fst this

theorem keysND_balancesOf {c : Currency} {m : BalMap} (hnd : keysND m) :
    keysND (balancesOf c m) := by
  induction m with
  | nil => simp [balancesOf, keysND]
  | cons e es ih =>
    simp only [keysND, List.map_cons, List.nodup_cons] at hnd
    by_cases hc : e.1.2 = c
    · simp only [balancesOf, List.filterMap_cons, if_pos hc, keysND, List.map_cons,
        List.nodup_cons]
      refine ⟨fun hmem => ?_, ih hnd.2⟩
      have : hasKey (e.1.1, c) es := hasKey_balancesOf hmem
      rw [← hc] at this
      exact hnd.1 this
    · simp only [balancesOf, List.filterMap_cons, if_neg hc]
      exact ih hnd.2

theorem sum_balancesOf (c : Currency) (m : BalMap) :
    ((balancesOf c m).map Prod.snd).sum = sumC c m := by
  induction m with
  | nil => rfl
  | cons e es ih =>
    by_cases hc : e.1.2 = c
    · rw [show balancesOf c (e :: es) = (e.1.1, e.2) :: balancesOf c es from by
        simp [balancesOf, List.filterMap_cons, hc]]
      simp only [List.map_cons, List.sum_cons, ih, sumC, if_pos hc]
    · rw [show balancesOf c (e :: es) = balancesOf c es from by
        simp [balancesOf, List.filterMap_cons, hc]]
      rw [ih]
      simp [sumC, hc]

theorem sum_filter_nonzero (l : List (ParticipantRef × Int)) :
    ((l.filter (fun e => decide (e.2 ≠ 0))).map Prod.snd).sum =
      (l.map Prod.snd).sum := by
  induction l with
  | nil => rfl
  | cons e es ih =>
    by_cases hz : e.2 = 0
    · rw [show (e :: es).filter (fun e => decide (e.2 ≠ 0))
          = es.filter (fun e => decide (e.2 ≠ 0)) from by simp [List.filter_cons, hz]]
      rw [ih]
      simp [hz]
    · rw [show (e :: es).filter (fun e => decide (e.2 ≠ 0))
          = e :: es.filter (fun e => decide (e.2 ≠ 0)) from by simp [List.filter_cons, hz]]
      simp only [List.map_cons, List.sum_cons, ih]

theorem mem_simplifySame {bal : BalMap} {c : Currency}
    {r : Except SettleError (List STxn)} (h : (c, r) ∈ simplifySame bal) :
    r = simplifyGroup c bal := by
  obtain ⟨c', _, heq⟩ := List.mem_map.mp h
  have h1 : c' = c := congrArg Prod.fst heq
  have h2 : simplifyGroup c' bal = r := congrArg Prod.snd heq
  rw [← h2, h1]

theorem group_invariants {c : Currency} {bal : BalMap} (hnd : keysND bal) :
    keysND (canon ((balancesOf c bal).filter (fun e => decide (e.2 ≠ 0)))) ∧
      zeroFree (canon ((balancesOf c bal).filter (fun e => decide (e.2 ≠ 0)))) ∧
      (((canon ((balancesOf c bal).filter (fun e => decide (e.2 ≠ 0)))).map
        Prod.snd).sum = sumC c bal) := by
  have hg : keysND (balancesOf c bal) := keysND_balancesOf hnd
  have hgf : keysND ((balancesOf c bal).filter (fun e => decide (e.2 ≠ 0))) :=
    List.Nodup.sublist (List.Sublist.map Prod.fst (List.filter_sublist _)) hg
  have hperm := canon_perm ((balancesOf c bal).filter (fun e => decide (e.2 ≠ 0)))
  refine ⟨?_, ?_, ?_⟩
  · exact (List.Perm.nodup_iff (hperm.map Prod.fst)).mpr hgf
  · intro x hx
    have hx' := hperm.mem_iff.mp hx
    exact of_decide_eq_true (List.mem_filter.mp hx').2
  · rw [(hperm.map Prod.snd).sum_eq, sum_filter_nonzero, sum_balancesOf]

theorem simplifyGroup_count {c : Currency} {bal : BalMap} (hnd : keysND bal)
    (hc : sumC c bal = 0) :
    ∃ txns, simplifyGroup c bal = .ok txns ∧
      txns.length ≤
        ((balancesOf c bal).filter (fun e => decide (e.2 ≠ 0))).length - 1 := by
  obtain ⟨hknd, hzf, hsum⟩ := group_invariants (c := c) hnd
  rw [hc] at hsum
  have hgsum : ((balancesOf c bal).map Prod.snd).sum = 0 := by
    rw [sum_balancesOf]; exact hc
  refine ⟨_, by rw [simplifyGroup, if_pos hgsum], ?_⟩
  have hcount := settleFuel_count c
    (canon ((balancesOf c bal).filter (fun e => decide (e.2 ≠ 0)))).length
    _ hknd hzf hsum le_rfl
  rw [settle]
  calc (settleFuel c (canon ((balancesOf c bal).filter
          (fun e => decide (e.2 ≠ 0)))).length
        (canon ((balancesOf c bal).filter (fun e => decide (e.2 ≠ 0))))).length
      ≤ (canon ((balancesOf c bal).filter (fun e => decide (e.2 ≠ 0)))).length - 1 :=
        hcount
    _ = ((balancesOf c bal).filter (fun e => decide (e.2 ≠ 0))).length - 1 := by
        rw [(canon_perm _).length_eq]

theorem settleFuel_currency (c : Currency) :
    ∀ (fuel : Nat) (g : List (ParticipantRef × Int)) (t : STxn),
      t ∈ settleFuel c fuel g → t.currency = c := by
  intro fuel
  induction fuel with
  | zero => intro g t ht; simp [settleFuel] at ht
  | succ fuel ih =>
    intro g t ht
    cases hcr : bestBy id g <;> cases hdb : bestBy (fun v => -v) g <;>
      simp only [settleFuel, hcr, hdb] at ht
    · cases ht
    · cases ht
    · cases ht
    · rcases List.mem_cons.mp ht with h | h
      · rw [h]
      · exact ih _ _ h

theorem aggregate_append_payments {L : Ledger} {asOf : Nat} {m : BalMap}
    (h : aggregate L asOf = .ok m) (newPays : List Payment)
    (hvalid : ∀ p ∈ newPays, p.occurredAt ≤ asOf ∧ p.status = .completed) :
    aggregate ⟨L.expenses, L.payments ++ newPays⟩ asOf =
      .ok (newPays.foldl applyPayment m) := by
  unfold aggregate at h ⊢
  simp only at h ⊢
  split at h
  case isTrue htrue =>
    cases h
    rw [if_pos htrue, List.filter_append, List.foldl_append]
    have hkeep : newPays.filter
        (fun p => decide (p.occurredAt ≤ asOf) && decide (p.status = .completed))
        = newPays := by
      refine List.filter_eq_self.mpr (fun p hp => ?_)
      obtain ⟨h1, h2⟩ := hvalid p hp
      rw [Bool.and_eq_true, decide_eq_true_eq, decide_eq_true_eq]
      exact ⟨h1, h2⟩
    rw [hkeep]
  case isFalse => cases h

theorem lookup_applyTxns {asOf : Nat} {c : Currency} :
    ∀ (ts : List STxn), (∀ t ∈ ts, t.currency = c) →
      ∀ (m : BalMap), keysND m → ∀ p,
        lookupD (p, c) ((ts.map (paymentOfTxn asOf)).foldl applyPayment m) =
          lookupD (p, c) m + txnNet ts p := by
  intro ts
  induction ts with
  | nil =>
    intro _ m _ p
    simp [txnNet]
  | cons t ts ih =>
    intro hcur m hnd p
    have htc : t.currency = c := hcur t (List.mem_cons_self _ _)
    have hnd₁ : keysND (addTo (t.debtor, t.currency) t.amount m) := keysND_addTo hnd
    have hstep : lookupD (p, c) (applyPayment m (paymentOfTxn asOf t)) =
        lookupD (p, c) m +
          ((if p = t.debtor then t.amount else 0)
            - (if p = t.creditor then t.amount else 0)) := by
      rw [applyPayment, paymentOfTxn]
      simp only
      rw [lookupD_addTo hnd₁, lookupD_addTo hnd, htc]
      by_cases h1 : p = t.debtor
      · by_cases h2 : p = t.creditor
        · rw [if_pos (by rw [h1] : (p, c) = (t.debtor, c)),
            if_pos (by rw [h2] : (p, c) = (t.creditor, c)), if_pos h1, if_pos h2]
          omega
        · rw [if_pos (by rw [h1] : (p, c) = (t.debtor, c)),
            if_neg (fun hh : (p, c) = (t.creditor, c) => h2 (congrArg Prod.fst hh)),
            if_pos h1, if_neg h2]
          omega
      · by_cases h2 : p = t.creditor
        · rw [if_neg (fun hh : (p, c) = (t.debtor, c) => h1 (congrArg Prod.fst hh)),
            if_pos (by rw [h2] : (p, c) = (t.creditor, c)), if_neg h1, if_pos h2]
          omega
        · rw [if_neg (fun hh : (p, c) = (t.debtor, c) => h1 (congrArg Prod.fst hh)),
            if_neg (fun hh : (p, c) = (t.creditor, c) => h2 (congrArg Prod.fst hh)),
            if_neg h1, if_neg h2]
          omega
    have hndstep : keysND (applyPayment m (paymentOfTxn asOf t)) := by
      rw [applyPayment]
      exact keysND_addTo (keysND_addTo hnd)
    simp only [List.map_cons, List.foldl_cons]
    rw [ih (fun x hx => hcur x (List.mem_cons_of_mem _ hx)) _ hndstep p, hstep,
      txnNet]
    omega

theorem roundtrip {L : Ledger} {asOf : Nat} {m : BalMap} {c : Currency}
    {txns : List STxn} (hagg : aggregate L asOf = .ok m)
    (hok : simplifyGroup c m = .ok txns) :
    ∃ m', aggregate ⟨L.expenses, L.payments ++ txns.map (paymentOfTxn asOf)⟩ asOf
        = .ok m' ∧ balancesOf c m' = [] := by
  obtain ⟨hndm, hzfm⟩ := aggregate_invariants hagg
  have hcons := aggregate_conservation hagg c
  have hgsum : ((balancesOf c m).map Prod.snd).sum = 0 := by
    rw [sum_balancesOf]; exact hcons
  have htxns : txns =
      settle c (canon ((balancesOf c m).filter (fun e => decide (e.2 ≠ 0)))) := by
    rw [simplifyGroup, if_pos hgsum] at hok
    exact (Except.ok.inj hok).symm
  have hfe : (balancesOf c m).filter (fun e => decide (e.2 ≠ 0)) = balancesOf c m :=
    List.filter_eq_self.mpr (fun e he => decide_eq_true (zeroFree_balancesOf hzfm e he))
  rw [hfe] at htxns
  obtain ⟨hknd, hzf, hsum⟩ := group_invariants (c := c) hndm
  rw [hfe] at hknd hzf hsum
  rw [hcons] at hsum
  have hnet := settleFuel_net c (canon (balancesOf c m)).length
    (canon (balancesOf c m)) hknd hzf hsum le_rfl
  have hcur : ∀ t ∈ txns, t.currency = c := by
    intro t ht
    rw [htxns] at ht
    exact settleFuel_currency c _ _ t ht
  have hvalid : ∀ p ∈ txns.map (paymentOfTxn asOf),
      p.occurredAt ≤ asOf ∧ p.status = .completed := by
    intro p hp
    obtain ⟨t, _, rfl⟩ := List.mem_map.mp hp
    exact ⟨le_refl _, rfl⟩
  have hagg' := aggregate_append_payments hagg (txns.map (paymentOfTxn asOf)) hvalid
  refine ⟨_, hagg', ?_⟩
  obtain ⟨hnd', hzf'⟩ := aggregate_invariants hagg'
  have hlook : ∀ p,
      lookupD (p, c) ((txns.map (paymentOfTxn asOf)).foldl applyPayment m) = 0 := by
    intro p
    rw [lookup_applyTxns txns hcur m hndm p]
    have h1 : lookupD p (canon (balancesOf c m)) = lookupD p (balancesOf c m) :=
      lookupD_perm (canon_perm _) hknd p
    have h2 := lookupD_balancesOf c m p
    have h3 := hnet p
    rw [htxns, settle, ← h2, ← h1]
    exact h3
  refine List.eq_nil_iff_forall_not_mem.mpr (fun x hx => ?_)
  have hxm := mem_balancesOf.mp hx
  have hval := lookupD_eq_of_mem hxm hnd'
  rw [hlook x.1] at hval
  exact hzf' _ hxm hval.symm

theorem convRel_trans {a b c : Except ConvError (List (ParticipantRef × Int))}
    (h₁ : ConvRel a b) (h₂ : ConvRel b c) : ConvRel a c := by
  cases a <;> cases b <;> cases c <;> simp only [ConvRel] at h₁ h₂ ⊢ <;>
    first
      | trivial
      | exact h₁.elim
      | exact h₂.elim
      | exact h₁.trans h₂

theorem convertAll_perm (st : ConvState) (fetch : Currency → Currency → Option Int)
    (now : Nat) (tc : Currency) {l₁ l₂ : BalMap} (h : l₁.Perm l₂) :
    ConvRel (convertAll st fetch now tc l₁) (convertAll st fetch now tc l₂) := by
  induction h with
  | nil => exact List.Perm.refl []
  | cons x h ih =>
    rename_i t₁ t₂
    cases hfx : convert st fetch now ⟨x.2, x.1.2⟩ tc <;>
      cases h₁ : convertAll st fetch now tc t₁ <;>
      cases h₂ : convertAll st fetch now tc t₂ <;>
      rw [h₁, h₂] at ih <;>
      simp only [ConvRel] at ih <;>
      simp only [convertAll, hfx, h₁, h₂, ConvRel] <;>
      first
        | trivial
        | exact ih.cons _
  | swap x y l =>
    cases hfx : convert st fetch now ⟨x.2, x.1.2⟩ tc <;>
      cases hfy : convert st fetch now ⟨y.2, y.1.2⟩ tc <;>
      cases hcl : convertAll st fetch now tc l <;>
      simp only [convertAll, hfx, hfy, hcl, ConvRel] <;>
      first
        | trivial
        | exact List.Perm.swap _ _ _
  | trans h₁ h₂ ih₁ ih₂ => exact convRel_trans ih₁ ih₂

theorem sortedParticipants_perm {bal₁ bal₂ : BalMap} (h : bal₁.Perm bal₂) :
    sortedParticipants bal₁ = sortedParticipants bal₂ := by
  have hd : ((bal₁.map (fun e => e.1.1)).dedup).Perm
      ((bal₂.map (fun e => e.1.1)).dedup) := (h.map _).dedup
  exact List.eq_of_perm_of_sorted
    ((List.perm_insertionSort pLe _).trans
      (hd.trans (List.perm_insertionSort pLe _).symm))
    (List.sorted_insertionSort pLe _) (List.sorted_insertionSort pLe _)

theorem sumFor_perm {w₁ w₂ : List (ParticipantRef × Int)} (h : w₁.Perm w₂)
    (p : ParticipantRef) : sumFor p w₁ = sumFor p w₂ :=
  ((h.filter _).map _).sum_eq

theorem unifiedGroup_congr (ps : List ParticipantRef)
    {w₁ w₂ : List (ParticipantRef × Int)} (h : w₁.Perm w₂) :
    unifiedGroup ps w₁ = unifiedGroup ps w₂ := by
  have hmap : ps.map (fun p => (p, sumFor p w₁)) = ps.map (fun p => (p, sumFor p w₂)) := by
    induction ps with
    | nil => rfl
    | cons p ps ih =>
      simp only [List.map_cons, ih]
      rw [sumFor_perm h]
  rw [unifiedGroup, unifiedGroup, hmap]

theorem simplifyGroup_perm (c : Currency) {bal₁ bal₂ : BalMap} (h : bal₁.Perm bal₂) :
    simplifyGroup c bal₁ = simplifyGroup c bal₂ := by
  have hp : (balancesOf c bal₁).Perm (balancesOf c bal₂) := h.filterMap _
  have hsum : ((balancesOf c bal₁).map Prod.snd).sum
      = ((balancesOf c bal₂).map Prod.snd).sum := (hp.map _).sum_eq
  have hcanon := canon_eq_of_perm (hp.filter (fun e => decide (e.2 ≠ 0)))
  rw [simplifyGroup, simplifyGroup, hsum, hcanon]

theorem simplifySame_perm {bal₁ bal₂ : BalMap} (h : bal₁.Perm bal₂) :
    simplifySame bal₁ = simplifySame bal₂ := by
  simp only [simplifySame, currencyList, List.map_cons, List.map_nil]
  rw [simplifyGroup_perm _ h, simplifyGroup_perm _ h, simplifyGroup_perm _ h,
    simplifyGroup_perm _ h, simplifyGroup_perm _ h]

theorem simplifyUnified_perm (st : ConvState)
    (fetch : Currency → Currency → Option Int) (now : Nat) (tc : Currency)
    {bal₁ bal₂ : BalMap} (h : bal₁.Perm bal₂) :
    simplifyUnified st fetch now tc bal₁ = simplifyUnified st fetch now tc bal₂ := by
  have hc := convertAll_perm st fetch now tc h
  cases h₁ : convertAll st fetch now tc bal₁ <;>
    cases h₂ : convertAll st fetch now tc bal₂ <;>
    rw [h₁, h₂] at hc <;> simp only [ConvRel] at hc
  · simp [simplifyUnified, h₁, h₂]
  · simp only [simplifyUnified, h₁, h₂]
    rw [sortedParticipants_perm h, unifiedGroup_congr _ hc]

/-! ### The claims -/

/-- C1: for every balance mapping whose amounts within each currency group sum
to zero, `simplify` (same-currency mode) emits for each currency group at most
`k − 1` SettlementTransactions, where `k` is the number of participants with a
nonzero balance in that group. -/

theorem claim_C1 (bal : BalMap) (hnd : keysND bal) (hz : ∀ c, sumC c bal = 0) :
    ∀ c r, (c, r) ∈ simplifySame bal →
      ∃ txns, r = .ok txns ∧
        txns.length ≤
          ((balancesOf c bal).filter (fun e => decide (e.2 ≠ 0))).length - 1 := by
  intro c r hmem
  rw [mem_simplifySame hmem]
  exact simplifyGroup_count hnd (hz c)

/-- Witness for C1 at the spec's scenario `{A: +60, B: +40, C: −100}`. -/

theorem claim_C1_witness :
    keysND [((ParticipantRef.member 1, Currency.usd), 60),
        ((ParticipantRef.member 2, Currency.usd), 40),
        ((ParticipantRef.member 3, Currency.usd), -100)]
      ∧ (∀ c, sumC c [((ParticipantRef.member 1, Currency.usd), 60),
        ((ParticipantRef.member 2, Currency.usd), 40),
        ((ParticipantRef.member 3, Currency.usd), -100)] = 0)
      ∧ (∀ c r, (c, r) ∈ simplifySame [((ParticipantRef.member 1, Currency.usd), 60),
            ((ParticipantRef.member 2, Currency.usd), 40),
            ((ParticipantRef.member 3, Currency.usd), -100)] →
          ∃ txns, r = .ok txns ∧
            txns.length ≤
              ((balancesOf c [((ParticipantRef.member 1, Currency.usd), 60),
                ((ParticipantRef.member 2, Currency.usd), 40),
                ((ParticipantRef.member 3, Currency.usd), -100)]).filter
                  (fun e => decide (e.2 ≠ 0))).length - 1) :=
  ⟨by decide, by intro c; cases c <;> decide,
    claim_C1 _ (by decide) (by intro c; cases c <;> decide)⟩

/-- C3: for every household ledger and every currency, the net balances
returned by `aggregate(household_id, as_of)` for that currency sum to exactly
zero across all participants. -/

theorem claim_C3 (L : Ledger) (asOf : Nat) (m : BalMap)
    (h : aggregate L asOf = .ok m) (c : Currency) : sumC c m = 0 :=
  aggregate_conservation h c

/-- Witness for C3 on a concrete ledger. -/

theorem claim_C3_witness :
    aggregate ledgerC3 10 =
        .ok [((ParticipantRef.member 1, Currency.usd), 30),
          ((ParticipantRef.member 2, Currency.usd), -30)]
      ∧ sumC Currency.usd [((ParticipantRef.member 1, Currency.usd), 30),
          ((ParticipantRef.member 2, Currency.usd), -30)] = 0 :=
  ⟨by decide,
    claim_C3 ledgerC3 10
      [((ParticipantRef.member 1, Currency.usd), 30),
        ((ParticipantRef.member 2, Currency.usd), -30)]
      (by decide) Currency.usd⟩

/-- C4: for every Expense and every percentage split of its shares, the share
amounts produced by percentage × total with the rounding remainder assigned
largest-share-first sum in minor units exactly to the expense total; in
particular a $100.00 expense split 33.33/33.33/33.34 yields share amounts
summing to 10000 cents. -/

theorem claim_C4 :
    (∀ (total : Nat) (shares : List (ParticipantRef × Nat)),
        (shares.map Prod.snd).sum = 10000 →
        ((computeShareAmounts total shares).map Prod.snd).sum = total)
      ∧ computeShareAmounts 10000
          [(ParticipantRef.member 1, 3333), (ParticipantRef.member 2, 3333),
            (ParticipantRef.member 3, 3334)]
        = [(ParticipantRef.member 3, 3334), (ParticipantRef.member 1, 3333),
            (ParticipantRef.member 2, 3333)]
      ∧ ((computeShareAmounts 10000
          [(ParticipantRef.member 1, 3333), (ParticipantRef.member 2, 3333),
            (ParticipantRef.member 3, 3334)]).map Prod.snd).sum = 10000 :=
  ⟨computeShareAmounts_sum, by decide, by decide⟩

/-- Witness for C4 on an uneven 25/75 split of 777 cents. -/

theorem claim_C4_witness :
    ([(ParticipantRef.member 1, 2500), (ParticipantRef.member 2, 7500)].map
        Prod.snd).sum = 10000
      ∧ ((computeShareAmounts 777
          [(ParticipantRef.member 1, 2500), (ParticipantRef.member 2, 7500)]).map
        Prod.snd).sum = 777 :=
  ⟨by decide, claim_C4.1 777 _ (by decide)⟩

/-- C7: for every Money `m`, `convert(m, m.currency)` equals `m` exactly:
same-currency conversion is the identity, with no rounding or floating-point
round-trip, for every converter state, fetch behavior and time. -/

theorem claim_C7 (st : ConvState) (fetch : Currency → Currency → Option Int)
    (now : Nat) (m : Money) : convert st fetch now m m.currency = .ok m := by
  rw [convert, if_pos rfl]

/-- C10: `getUserTimezone` is total over every behavior of the browser Intl
call — it returns the detected IANA timezone when the call succeeds and the
fallback `UTC` when it throws. -/

theorem claim_C10 (r : Except String String) :
    (∀ tz, r = .ok tz → getUserTimezone r = tz)
      ∧ (∀ e, r = .error e → getUserTimezone r = "UTC") := by
  constructor <;> intro x hx <;> rw [hx] <;> rfl

/-- Witness for C10 at a throwing Intl call. -/

theorem claim_C10_witness :
    getUserTimezone (Except.error "intl failed") = "UTC" :=
  (claim_C10 (Except.error "intl failed")).2 "intl failed" rfl

/-- C2: `simplify` is deterministic: its result on a balance mapping does not
depend on the presentation order of the mapping, for the same optional target
currency, the tie-breaks being fixed by the stable participant ordering. -/

theorem claim_C2 (st : ConvState) (fetch : Currency → Currency → Option Int)
    (now : Nat) (bal₁ bal₂ : BalMap) (t : Option Currency) (h : bal₁.Perm bal₂) :
    simplify st fetch now bal₁ t = simplify st fetch now bal₂ t := by
  cases t with
  | none =>
    simp only [simplify]
    rw [simplifySame_perm h]
  | some tc =>
    simp only [simplify]
    rw [simplifyUnified_perm st fetch now tc h]

/-- Witness for C2 on a two-entry mapping presented in both orders. -/

theorem claim_C2_witness :
    ([((ParticipantRef.member 1, Currency.usd), 5),
        ((ParticipantRef.member 2, Currency.usd), -5)] : BalMap).Perm
      [((ParticipantRef.member 2, Currency.usd), -5),
        ((ParticipantRef.member 1, Currency.usd), 5)]
    ∧ simplify ⟨[], 0⟩ (fun _ _ => none) 0
        [((ParticipantRef.member 1, Currency.usd), 5),
          ((ParticipantRef.member 2, Currency.usd), -5)] none
      = simplify ⟨[], 0⟩ (fun _ _ => none) 0
        [((ParticipantRef.member 2, Currency.usd), -5),
          ((ParticipantRef.member 1, Currency.usd), 5)] none :=
  ⟨List.Perm.swap _ _ _,
    claim_C2 ⟨[], 0⟩ (fun _ _ => none) 0 _ _ none (List.Perm.swap _ _ _)⟩

/-- C5: recording every SettlementTransaction emitted by `simplify` for a
currency group as a completed Payment and re-running `aggregate` yields no
nonzero balance for any participant in that currency group. -/

theorem claim_C5 (L : Ledger) (asOf : Nat) (m : BalMap) (c : Currency)
    (txns : List STxn) (hagg : aggregate L asOf = .ok m)
    (hmem : (c, Except.ok txns) ∈ simplifySame m) :
    ∃ m', aggregate ⟨L.expenses, L.payments ++ txns.map (paymentOfTxn asOf)⟩ asOf
        = .ok m' ∧ balancesOf c m' = [] :=
  roundtrip hagg (mem_simplifySame hmem).symm

/-- Witness for C5 on a concrete ledger and its emitted settlement. -/

theorem claim_C5_witness :
    aggregate ledgerC5 0 =
        .ok [((ParticipantRef.member 1, Currency.usd), 100),
          ((ParticipantRef.member 2, Currency.usd), -100)]
    ∧ (Currency.usd,
        Except.ok [⟨ParticipantRef.member 2, ParticipantRef.member 1,
          Currency.usd, 100⟩])
        ∈ simplifySame [((ParticipantRef.member 1, Currency.usd), 100),
          ((ParticipantRef.member 2, Currency.usd), -100)]
    ∧ (∃ m', aggregate ⟨ledgerC5.expenses, ledgerC5.payments ++
          ([⟨ParticipantRef.member 2, ParticipantRef.member 1,
            Currency.usd, 100⟩] : List STxn).map (paymentOfTxn 0)⟩ 0 = .ok m'
        ∧ balancesOf Currency.usd m' = []) :=
  ⟨by decide, by decide,
    claim_C5 ledgerC5 0
      [((ParticipantRef.member 1, Currency.usd), 100),
        ((ParticipantRef.member 2, Currency.usd), -100)]
      Currency.usd
      [⟨ParticipantRef.member 2, ParticipantRef.member 1, Currency.usd, 100⟩]
      (by decide) (by decide)⟩

/-- C6: when the fresh-rate fetch fails and the target differs from the source
currency, `convert` succeeds using the most recent cached rate regardless of
its age and fails with `RateUnavailable` exactly when no cached rate exists. -/

theorem claim_C6 (st : ConvState) (fetch : Currency → Currency → Option Int)
    (now : Nat) (m : Money) (tgt : Currency) (hne : tgt ≠ m.currency)
    (hfail : fetch m.currency tgt = none) :
    (∀ e, bestCached st.cache m.currency tgt = some e →
        convert st fetch now m tgt =
          .ok ⟨halfAwayDiv (m.amount * e.rate) rateScale, tgt⟩)
      ∧ (bestCached st.cache m.currency tgt = none →
        convert st fetch now m tgt = .error .rateUnavailable) := by
  have hne' : ¬ (m.currency = tgt) := fun h => hne h.symm
  constructor
  · intro e he
    simp only [convert, if_neg hne, rateOf, if_neg hne', he]
    by_cases hf : now - e.fetchedAt ≤ st.ttl
    · rw [if_pos hf]
      rfl
    · rw [if_neg hf, hfail]
      rfl
  · intro hnone
    simp only [convert, if_neg hne, rateOf, if_neg hne', hnone, hfail]
    rfl

/-- Witness for C6 at the spec's scenario: fetch fails, TTL one hour, cache
two hours old — conversion still succeeds; with no cache it fails. -/

theorem claim_C6_witness :
    Currency.usd ≠ Currency.eur
    ∧ convert ⟨cacheC6, 3600⟩ (fun _ _ => none) 7200 ⟨100, .eur⟩ .usd =
        .ok ⟨110, .usd⟩
    ∧ convert ⟨[], 3600⟩ (fun _ _ => none) 7200 ⟨100, .eur⟩ .usd =
        .error .rateUnavailable := by
  refine ⟨by decide, ?_, ?_⟩
  · have h := (claim_C6 ⟨cacheC6, 3600⟩ (fun _ _ => none) 7200 ⟨100, .eur⟩ .usd
      (by decide) rfl).1 ⟨.eur, .usd, 1100000, 0⟩ (by decide)
    rw [h]
    decide
  · exact (claim_C6 ⟨[], 3600⟩ (fun _ _ => none) 7200 ⟨100, .eur⟩ .usd
      (by decide) rfl).2 (by decide)

/-- C8: login atomicity — for every failure of the token request or of the
subsequent current-user request, `login` rethrows the error and the resulting
store state has `user = none`, `isAuthenticated = false`,
`isLoading = false`. -/

theorem claim_C8 (s : AuthState) (tokenRes : Except ApiError TokenResponse)
    (userRes : Except ApiError User)
    (hfail : (∃ e, tokenRes = .error e) ∨ (∃ e, userRes = .error e)) :
    ∃ err, (login s tokenRes userRes).2.2 = .error err
      ∧ (login s tokenRes userRes).1.user = none
      ∧ (login s tokenRes userRes).1.isAuthenticated = false
      ∧ (login s tokenRes userRes).1.isLoading = false := by
  cases tokenRes with
  | error e => exact ⟨.api e, rfl, rfl, rfl, rfl⟩
  | ok tr =>
    cases htok : tr.accessToken with
    | none =>
      refine ⟨.noAccessToken, ?_, ?_, ?_, ?_⟩ <;> simp [login, htok]
    | some tok =>
      by_cases hempty : tok = ""
      · refine ⟨.noAccessToken, ?_, ?_, ?_, ?_⟩ <;> simp [login, htok, hempty]
      · cases userRes with
        | error e =>
          refine ⟨.api e, ?_, ?_, ?_, ?_⟩ <;> simp [login, htok, hempty]
        | ok u =>
          exfalso
          rcases hfail with ⟨e, he⟩ | ⟨e, he⟩ <;> cases he

/-- Witness for C8: a failing token request leaves a clean signed-out state. -/

theorem claim_C8_witness :
    ((∃ e, (Except.error ApiError.networkError : Except ApiError TokenResponse)
        = .error e)
      ∨ (∃ e, (Except.ok ⟨1, "a@b.c"⟩ : Except ApiError User) = .error e))
    ∧ ∃ err,
      (login ⟨none, false, false⟩ (Except.error ApiError.networkError)
          (Except.ok ⟨1, "a@b.c"⟩)).2.2 = .error err
        ∧ (login ⟨none, false, false⟩ (Except.error ApiError.networkError)
          (Except.ok ⟨1, "a@b.c"⟩)).1.user = none
        ∧ (login ⟨none, false, false⟩ (Except.error ApiError.networkError)
          (Except.ok ⟨1, "a@b.c"⟩)).1.isAuthenticated = false
        ∧ (login ⟨none, false, false⟩ (Except.error ApiError.networkError)
          (Except.ok ⟨1, "a@b.c"⟩)).1.isLoading = false :=
  ⟨Or.inl ⟨ApiError.networkError, rfl⟩,
    claim_C8 ⟨none, false, false⟩ (Except.error ApiError.networkError)
      (Except.ok ⟨1, "a@b.c"⟩) (Or.inl ⟨ApiError.networkError, rfl⟩)⟩

/-- C9: on an HTTP 401 response, the interceptor leaves localStorage untouched
and performs no redirect for login/register requests; otherwise it removes the
`access_token` and `user` keys and redirects to `/login` unless already there;
in every case the error is propagated as a rejected promise. -/

theorem claim_C9 (url : Option String) (b : BrowserState) :
    ((strContains (url.getD "") "/auth/login" = true
        ∨ strContains (url.getD "") "/auth/register" = true) →
      (respInterceptor 401 url b).storage = b.storage
        ∧ (respInterceptor 401 url b).redirect = none)
    ∧ ((strContains (url.getD "") "/auth/login" = false
        ∧ strContains (url.getD "") "/auth/register" = false) →
      (respInterceptor 401 url b).storage
          = removeItem "user" (removeItem "access_token" b.storage)
        ∧ (b.pathname ≠ "/login" →
            (respInterceptor 401 url b).redirect = some "/login")
        ∧ (b.pathname = "/login" → (respInterceptor 401 url b).redirect = none))
    ∧ (respInterceptor 401 url b).rejected = true := by
  cases hA : strContains (url.getD "") "/auth/login" <;>
    cases hB : strContains (url.getD "") "/auth/register" <;>
    by_cases hp : b.pathname = "/login" <;>
    refine ⟨fun h => ?_, fun h => ?_, ?_⟩ <;>
    simp_all [respInterceptor]

/-- Witness for C9: a 401 on a login request leaves storage and location
alone while the error is still rejected. -/

theorem claim_C9_witness :
    (strContains ((some "/auth/login").getD "") "/auth/login" = true
      ∨ strContains ((some "/auth/login").getD "") "/auth/register" = true)
    ∧ ((respInterceptor 401 (some "/auth/login")
        ⟨"/login", [("access_token", "abc")]⟩).storage
          = (⟨"/login", [("access_token", "abc")]⟩ : BrowserState).storage
      ∧ (respInterceptor 401 (some "/auth/login")
        ⟨"/login", [("access_token", "abc")]⟩).redirect = none)
    ∧ (respInterceptor 401 (some "/auth/login")
        ⟨"/login", [("access_token", "abc")]⟩).rejected = true :=
  ⟨Or.inl (by decide),
    (claim_C9 (some "/auth/login") ⟨"/login", [("access_token", "abc")]⟩).1
      (Or.inl (by decide)),
    (claim_C9 (some "/auth/login") ⟨"/login", [("access_token", "abc")]⟩).2.2⟩

end Manage
